import Mathlib

/-!
Verification of the PortfolioManager frontend core against its specification.

The definitions below are a shallow embedding of the TypeScript source:
* `Strategy`, `Stock`, `TargetAllocation`, `CombinedAllocation` mirror the
  interfaces in `App.tsx` / `StockListPage.tsx` / `AssetAllocationPage.tsx`.
* JavaScript numbers are modelled as rationals (`ℚ`); JS `Map<string, number>`
  is modelled as an insertion-ordered association list (`CatMap`), with
  `mapSet` keeping the position of an existing key and appending new keys,
  exactly as `Map.set` does.
* The truthy test `livePrice ? … : …` on a number is `false` exactly for an
  absent entry and for the value `0` (NaN is not modelled).
-/

/-- `Strategy` record, from the `Strategy` interface in `StockListPage.tsx`. -/
structure Strategy where
  id : Nat
  name : String
  description : Option String
  parent_id : Option Nat
deriving DecidableEq, Repr

/-- `Stock` record, from the `Stock` interface in `App.tsx` (the `strategies`
relation is carried separately where needed). -/
structure Stock where
  id : Nat
  ticker : String
  name : String
  quantity : ℚ
  acquisition_price : ℚ
  category : String
deriving DecidableEq, Repr

/-- `TargetAllocation` record, from `AssetAllocationPage.tsx`. -/
structure TargetAllocation where
  category : String
  percentage : ℚ
deriving DecidableEq, Repr

/-- `CombinedAllocation` row, from `AssetAllocationPage.tsx`. -/
structure CombinedAllocation where
  category : String
  currentPercentage : ℚ
  targetPercentage : ℚ
deriving DecidableEq, Repr

/-- The `livePrices` object `{ [stockId: number]: number }`: a finite partial
map from stock id to price, modelled as an association list. -/
abbrev Prices := List (Nat × ℚ)

/-- `livePrices[stock.id]`: `some p` when an entry is present, `none`
otherwise (JS `undefined`). -/
def lookupPrice (ps : Prices) (i : Nat) : Option ℚ :=
  (ps.find? (fun e => e.1 = i)).map (fun e => e.2)

/-- The per-stock value computed identically in `AssetAllocationPage.tsx`
(`currentAllocation`), `App.tsx` (`pieChartData`, `currentAllocation`) and
`AssetCompositionPage`:
`const value = livePrice ? livePrice * stock.quantity : stock.quantity * stock.acquisition_price;`
— the truthy test makes a present-but-zero price fall back to acquisition
price. -/
def stockValue (ps : Prices) (s : Stock) : ℚ :=
  match lookupPrice ps s.id with
  | some p => if p = 0 then s.quantity * s.acquisition_price else p * s.quantity
  | none => s.quantity * s.acquisition_price

/-- A JS `Map<string, number>` as an insertion-ordered association list. -/
abbrev CatMap := List (String × ℚ)

/-- `Map.get`: `some v` for a present key, `none` (JS `undefined`) otherwise. -/
def mapGet (m : CatMap) (k : String) : Option ℚ :=
  (m.find? (fun e => e.1 = k)).map (fun e => e.2)

/-- `map.get(k) || 0`: a missing entry reads as `0` (a stored `0` also reads
as `0`, which the `|| 0` leaves unchanged). -/
def mapGetD (m : CatMap) (k : String) : ℚ :=
  (mapGet m k).getD 0

/-- `Map.set`: overwrite in place when the key is present (keeping its
insertion position), append otherwise. -/
def mapSet : CatMap → String → ℚ → CatMap
  | [], k, v => [(k, v)]
  | e :: rest, k, v => if e.1 = k then (k, v) :: rest else e :: mapSet rest k v

/-- The `stocks.forEach` loop of `currentAllocation` / `pieChartData`
accumulating `categoryTotals.set(stock.category, (categoryTotals.get(stock.category) || 0) + value)`. -/
def accumTotals (ps : Prices) (init : CatMap) (stocks : List Stock) : CatMap :=
  stocks.foldl (fun m s => mapSet m s.category (mapGetD m s.category + stockValue ps s)) init

/-- `categoryTotals` after the loop, starting from `new Map()`. -/
def categoryTotals (ps : Prices) (stocks : List Stock) : CatMap :=
  accumTotals ps [] stocks

/-- `totalPortfolioValue`, accumulated by `totalPortfolioValue += value` in
the same loop. -/
def totalPortfolioValue (ps : Prices) (stocks : List Stock) : ℚ :=
  stocks.foldl (fun acc s => acc + stockValue ps s) 0

/-- `currentAllocation` from `AssetAllocationPage.tsx` lines 67–85 (the copy
in `App.tsx` lines 150–168 is textually identical): per-category percentage
of total portfolio value, or the empty map when the total is zero. -/
def currentAllocation (ps : Prices) (stocks : List Stock) : CatMap :=
  let totals := categoryTotals ps stocks
  let total := totalPortfolioValue ps stocks
  if total = 0 then []
  else totals.foldl (fun m e => mapSet m e.1 (e.2 / total * 100)) []

/-- A `{ name, value }` datum of the composition pie chart. -/
structure PieDatum where
  name : String
  value : ℚ
deriving DecidableEq, Repr

/-- `pieChartData` from `App.tsx` lines 140–148 and `AssetCompositionPage`
(`src/unnamed/part_002`): the raw per-category value totals. -/
def pieChartData (ps : Prices) (stocks : List Stock) : List PieDatum :=
  (categoryTotals ps stocks).map (fun e => ⟨e.1, e.2⟩)

/-- Rounding to two decimals, as displayed by `toFixed(2)` (round to nearest,
no ties arise in the specified scenarios). -/
def round2 (x : ℚ) : ℚ :=
  (round (x * 100) : ℤ) / 100

-- Scenario data from §8 of the specification.

/-- Stock A of the §8 scenario: category 日本株, quantity 10, acquisition
price 1000, no live price. -/
def stockA : Stock :=
  { id := 1, ticker := "7203", name := "A", quantity := 10,
    acquisition_price := 1000, category := "日本株" }

/-- Stock B of the §8 scenario: category 米国株, quantity 5, live price 300
(acquisition price 200, irrelevant since the live price is used). -/
def stockB : Stock :=
  { id := 2, ticker := "AAPL", name := "B", quantity := 5,
    acquisition_price := 200, category := "米国株" }

/-- Live prices of the §8 scenario: only stock B has one. -/
def scenPrices : Prices := [(2, 300)]

-- The candidate-set deduplication `[...new Set([...a, ...b])]`: keep the
-- first occurrence of each element, preserving order.

/-- Worker for `jsSetDedup`, carrying the set of elements already seen. -/
def jsSetDedupGo [DecidableEq α] (seen : List α) : List α → List α
  | [] => []
  | x :: xs => if x ∈ seen then jsSetDedupGo seen xs else x :: jsSetDedupGo (x :: seen) xs

/-- `[...new Set(l)]`: `l` with all but the first occurrence of each element
removed, in order. -/
def jsSetDedup [DecidableEq α] (l : List α) : List α :=
  jsSetDedupGo [] l

/-- The comparator `(a, b) => b.currentPercentage - a.currentPercentage`
of `combinedAllocationData`, as the relation it sorts by: `a` may precede
`b` when `a.currentPercentage ≥ b.currentPercentage`. -/
def rowGE (a b : CombinedAllocation) : Prop :=
  b.currentPercentage ≤ a.currentPercentage

instance : DecidableRel rowGE :=
  fun a b => inferInstanceAs (Decidable (b.currentPercentage ≤ a.currentPercentage))

instance : IsTotal CombinedAllocation rowGE :=
  ⟨fun a b => le_total b.currentPercentage a.currentPercentage⟩

instance : IsTrans CombinedAllocation rowGE :=
  ⟨fun _ _ _ hab hbc => le_trans hbc hab⟩

/-- One row of the comparison table: `currentPercentage` is
`currentAllocation.get(category) || 0`, `targetPercentage` is
`allocations.find(a => a.category === category)?.percentage || 0`. -/
def combinedRow (cur : CatMap) (allocations : List TargetAllocation)
    (category : String) : CombinedAllocation :=
  { category := category
    currentPercentage := (mapGet cur category).getD 0
    targetPercentage :=
      ((allocations.find? (fun a => a.category = category)).map (fun a => a.percentage)).getD 0 }

/-- `combinedAllocationData` from `AssetAllocationPage.tsx` lines 87–95 (the
copy in `App.tsx` lines 170–178 is textually identical): one row per category
of either input, zero-filled on the missing side, sorted by current
percentage descending (JS `Array.sort` is stable; insertion sort is the
corresponding stable sort). -/
def combinedAllocationData (cur : CatMap) (allocations : List TargetAllocation) :
    List CombinedAllocation :=
  ((jsSetDedup (cur.map (fun e => e.1) ++ allocations.map (fun a => a.category))).map
    (combinedRow cur allocations)).insertionSort rowGE

-- Stock-edit strategy selection and validation, from `StockListPage.tsx`.

/-- `allStrategies.find(s => s.id === i)`. -/
def findStrategy (all : List Strategy) (i : Nat) : Option Strategy :=
  all.find? (fun s => s.id = i)

/-- One iteration of the validation loop in `handleUpdateSubmit` (lines
113–119): a selected child id passes unless it resolves to a strategy with a
non-null `parent_id` that is missing from the selected parent ids. -/
def childOk (all : List Strategy) (parentIds : List Nat) (childId : Nat) : Bool :=
  match findStrategy all childId with
  | none => true
  | some cs =>
    match cs.parent_id with
    | none => true
    | some p => decide (p ∈ parentIds)

/-- The whole validation loop of `handleUpdateSubmit`: every selected child
passes. -/
def childValidationOk (all : List Strategy) (parentIds childIds : List Nat) : Bool :=
  childIds.all (childOk all parentIds)

/-- `handleUpdateSubmit` (`StockListPage.tsx` lines 108–140), restricted to
the association payload: on validation failure it alerts
「選択された子戦略の親戦略が選択されていません。」 and returns without
issuing the PUT (`none`); on success the PUT carries
`strategy_ids = [...new Set([...parents, ...children])]` (`some ids`). -/
def handleUpdateSubmit (all : List Strategy) (parentIds childIds : List Nat) :
    Option (List Nat) :=
  if childValidationOk all parentIds childIds
  then some (jsSetDedup (parentIds ++ childIds))
  else none

/-- `handleEditingParentStrategyChange` (`StockListPage.tsx` lines 91–100):
the new parent selection is taken as given, and the child selection is
filtered to those whose strategy resolves and whose `parent_id` is still
among the new parent ids (`ids.includes(childStrategy.parent_id!)` is false
for a null parent id). Returns (new parent ids, new child ids). -/
def handleEditingParentStrategyChange (all : List Strategy) (ids prevChildIds : List Nat) :
    List Nat × List Nat :=
  (ids, prevChildIds.filter (fun childId =>
    match findStrategy all childId with
    | none => false
    | some cs =>
      match cs.parent_id with
      | none => false
      | some p => decide (p ∈ ids)))

-- Category heuristic applied on fetch, from `App.tsx` `fetchStocks`.

/-- The regex test `/^\d+$/.test(stock.ticker)`: non-empty and all digits. -/
def isJapaneseTicker (t : String) : Bool :=
  !t.isEmpty && t.data.all (fun ch => ch.isDigit)

/-- The category-fixing step of `fetchStocks` (`App.tsx` lines 74–95): an
empty or 「未分類」 category is replaced per the ticker heuristic and the
stock is flagged for write-back (`needsUpdate`); the Bool returned is that
flag (a `true` leads to a PUT of the updated stock). Name fixing (lines
62–72) is external I/O and is not part of this claim's behavior. -/
def fixStockCategory (s : Stock) : Stock × Bool :=
  if s.category = "" ∨ s.category = "未分類" then
    ({ s with category := if isJapaneseTicker s.ticker then "日本株" else "米国株" }, true)
  else (s, false)

-- Concrete strategy data for the §8 scenario.

/-- Strategy "Growth", top level, id 1 (§8 scenario). -/
def growth : Strategy :=
  { id := 1, name := "Growth", description := none, parent_id := none }

/-- Strategy "Growth-Tech", child of 1, id 2 (§8 scenario). -/
def growthTech : Strategy :=
  { id := 2, name := "Growth-Tech", description := none, parent_id := some 1 }

/-- The strategy tree of the §8 scenario. -/
def demoStrategies : List Strategy := [growth, growthTech]

/-- A stock whose live-price entry is present but zero (for the truthy-check
edge case). -/
def stockZ : Stock :=
  { id := 3, ticker := "9984", name := "Z", quantity := 10,
    acquisition_price := 1000, category := "日本株" }

/-- A live-price mapping carrying the entry `0` for `stockZ`. -/
def zeroPrices : Prices := [(3, 0)]

/-- A fetched stock with an empty category and an all-digit ticker. -/
def stockU : Stock :=
  { id := 4, ticker := "7203", name := "U", quantity := 1,
    acquisition_price := 1, category := "" }

-- Helper lemmas about the embedded container operations.

theorem mem_jsSetDedupGo [DecidableEq α] (seen : List α) (l : List α) (x : α) :
    x ∈ jsSetDedupGo seen l ↔ x ∈ l ∧ x ∉ seen := by
  induction l generalizing seen with
  | nil => simp [jsSetDedupGo]
  | cons y ys ih =>
    by_cases hy : y ∈ seen
    · simp only [jsSetDedupGo, if_pos hy, ih, List.mem_cons]
      constructor
      · rintro ⟨hx, hns⟩; exact ⟨Or.inr hx, hns⟩
      · rintro ⟨hx | hx, hns⟩
        · exact absurd (hx ▸ hy) hns
        · exact ⟨hx, hns⟩
    · simp only [jsSetDedupGo, if_neg hy, List.mem_cons, ih]
      constructor
      · rintro (rfl | ⟨hx, hns⟩)
        · exact ⟨Or.inl rfl, hy⟩
        · exact ⟨Or.inr hx, fun h => hns (Or.inr h)⟩
      · rintro ⟨rfl | hx, hns⟩
        · exact Or.inl rfl
        · by_cases hxy : x = y
          · exact Or.inl hxy
          · exact Or.inr ⟨hx, fun h => h.elim hxy hns⟩

theorem nodup_jsSetDedupGo [DecidableEq α] (seen : List α) (l : List α) :
    (jsSetDedupGo seen l).Nodup := by
  induction l generalizing seen with
  | nil => simp [jsSetDedupGo]
  | cons y ys ih =>
    by_cases hy : y ∈ seen
    · simpa [jsSetDedupGo, if_pos hy] using ih seen
    · simp only [jsSetDedupGo, if_neg hy]
      refine List.Nodup.cons ?_ (ih (y :: seen))
      intro hmem
      exact ((mem_jsSetDedupGo _ _ _).1 hmem).2 (List.mem_cons_self _ _)

theorem mem_jsSetDedup [DecidableEq α] (l : List α) (x : α) :
    x ∈ jsSetDedup l ↔ x ∈ l := by
  simp [jsSetDedup, mem_jsSetDedupGo]

theorem nodup_jsSetDedup [DecidableEq α] (l : List α) : (jsSetDedup l).Nodup :=
  nodup_jsSetDedupGo [] l

theorem mapGet_nil (k : String) : mapGet [] k = none := rfl

theorem mapGet_cons (e : String × ℚ) (m : CatMap) (k : String) :
    mapGet (e :: m) k = if e.1 = k then some e.2 else mapGet m k := by
  by_cases h : e.1 = k
  · simp [mapGet, List.find?_cons_of_pos, h]
  · simp [mapGet, List.find?_cons_of_neg, h]

theorem mapSet_cons (e : String × ℚ) (m : CatMap) (k : String) (v : ℚ) :
    mapSet (e :: m) k v = if e.1 = k then (k, v) :: m else e :: mapSet m k v := rfl

theorem mapGet_mapSet (m : CatMap) (k k' : String) (v : ℚ) :
    mapGet (mapSet m k v) k' = if k = k' then some v else mapGet m k' := by
  induction m with
  | nil =>
    by_cases h : k = k' <;> simp [mapSet, mapGet_cons, mapGet_nil, h]
  | cons e rest ih =>
    rw [mapSet_cons]
    by_cases he : e.1 = k
    · rw [if_pos he, mapGet_cons, mapGet_cons]
      by_cases h : k = k'
      · simp [h]
      · have h' : ¬ e.1 = k' := fun hc => h (he.symm.trans hc)
        simp [h, h']
    · rw [if_neg he, mapGet_cons, ih, mapGet_cons]
      by_cases h : e.1 = k'
      · have hkk : ¬ k = k' := fun hk => he (hk ▸ h)
        simp [h, hkk]
      · simp [h]

theorem mapGetD_mapSet (m : CatMap) (k k' : String) (v : ℚ) :
    mapGetD (mapSet m k v) k' = if k = k' then v else mapGetD m k' := by
  unfold mapGetD
  rw [mapGet_mapSet]
  split <;> simp

theorem mapGet_eq_none (m : CatMap) (k : String) :
    mapGet m k = none ↔ k ∉ m.map (fun e => e.1) := by
  induction m with
  | nil => simp [mapGet_nil]
  | cons e rest ih =>
    rw [mapGet_cons]
    by_cases h : e.1 = k
    · subst h
      simp
    · have h' : ¬ k = e.1 := fun hc => h hc.symm
      simp [if_neg h, ih, h']

theorem mapSet_of_not_mem (m : CatMap) (k : String) (v : ℚ)
    (h : k ∉ m.map (fun e => e.1)) : mapSet m k v = m ++ [(k, v)] := by
  induction m with
  | nil => rfl
  | cons e rest ih =>
    simp only [List.map_cons, List.mem_cons] at h
    push_neg at h
    rw [mapSet_cons, if_neg (fun hc => h.1 hc.symm), ih h.2]
    simp

theorem keys_mapSet_of_mem (m : CatMap) (k : String) (v : ℚ)
    (h : k ∈ m.map (fun e => e.1)) :
    (mapSet m k v).map (fun e => e.1) = m.map (fun e => e.1) := by
  induction m with
  | nil => simp at h
  | cons e rest ih =>
    rw [mapSet_cons]
    by_cases he : e.1 = k
    · simp [if_pos he, he]
    · have h' : k ∈ rest.map (fun e => e.1) := by
        rw [List.map_cons] at h
        rcases List.mem_cons.1 h with hc | hc
        · exact absurd hc.symm he
        · exact hc
      simp [if_neg he, ih h']

theorem nodup_keys_mapSet (m : CatMap) (k : String) (v : ℚ)
    (h : (m.map (fun e => e.1)).Nodup) :
    ((mapSet m k v).map (fun e => e.1)).Nodup := by
  by_cases hk : k ∈ m.map (fun e => e.1)
  · rw [keys_mapSet_of_mem m k v hk]
    exact h
  · rw [mapSet_of_not_mem m k v hk]
    simp [List.nodup_append, h, hk]

theorem accumTotals_cons (ps : Prices) (init : CatMap) (s : Stock) (rest : List Stock) :
    accumTotals ps init (s :: rest) =
      accumTotals ps (mapSet init s.category (mapGetD init s.category + stockValue ps s)) rest :=
  rfl

theorem nodup_keys_accumTotals (ps : Prices) (stocks : List Stock) :
    ∀ init : CatMap, (init.map (fun e => e.1)).Nodup →
      ((accumTotals ps init stocks).map (fun e => e.1)).Nodup := by
  induction stocks with
  | nil => exact fun init h => h
  | cons s rest ih =>
    intro init h
    rw [accumTotals_cons]
    exact ih _ (nodup_keys_mapSet _ _ _ h)

theorem mapGetD_accumTotals (ps : Prices) (stocks : List Stock) :
    ∀ (init : CatMap) (k : String),
      mapGetD (accumTotals ps init stocks) k =
        mapGetD init k + ((stocks.filter (fun s => s.category = k)).map (stockValue ps)).sum := by
  induction stocks with
  | nil => simp [accumTotals]
  | cons s rest ih =>
    intro init k
    rw [accumTotals_cons, ih, mapGetD_mapSet]
    by_cases h : s.category = k
    · rw [if_pos h, List.filter_cons_of_pos (by simpa using h)]
      subst h
      simp [add_assoc]
    · rw [if_neg h, List.filter_cons_of_neg (by simpa using h)]

theorem foldl_add_stockValue (ps : Prices) :
    ∀ (l : List Stock) (a : ℚ),
      l.foldl (fun acc s => acc + stockValue ps s) a = a + (l.map (stockValue ps)).sum := by
  intro l
  induction l with
  | nil => simp
  | cons s rest ih =>
    intro a
    rw [List.foldl_cons, ih, List.map_cons, List.sum_cons, add_assoc]

theorem totalPortfolioValue_eq_sum (ps : Prices) (stocks : List Stock) :
    totalPortfolioValue ps stocks = (stocks.map (stockValue ps)).sum := by
  rw [totalPortfolioValue, foldl_add_stockValue, zero_add]

theorem foldl_mapSet_fresh (g : String × ℚ → ℚ) :
    ∀ (l acc : CatMap), (l.map (fun e => e.1)).Nodup →
      (∀ e ∈ l, e.1 ∉ acc.map (fun e => e.1)) →
      l.foldl (fun m e => mapSet m e.1 (g e)) acc = acc ++ l.map (fun e => (e.1, g e)) := by
  intro l
  induction l with
  | nil => simp
  | cons e rest ih =>
    intro acc hnd hfresh
    rw [List.foldl_cons, mapSet_of_not_mem _ _ _ (hfresh e (List.mem_cons_self _ _)),
      ih _ ((List.nodup_cons.1 (by simpa using hnd)).2)]
    · simp
    · intro e' he'
      simp only [List.map_append, List.map_cons, List.mem_append]
      rintro (hc | hc)
      · exact hfresh e' (List.mem_cons_of_mem _ he') hc
      · have : e'.1 = e.1 := by simpa using hc
        have hhead : e.1 ∉ rest.map (fun x => x.1) :=
          (List.nodup_cons.1 (by simpa using hnd)).1
        exact hhead (this ▸ List.mem_map_of_mem _ he')

theorem currentAllocation_of_total_zero (ps : Prices) (stocks : List Stock)
    (h : totalPortfolioValue ps stocks = 0) : currentAllocation ps stocks = [] := by
  simp [currentAllocation, h]

theorem currentAllocation_of_total_ne_zero (ps : Prices) (stocks : List Stock)
    (h : totalPortfolioValue ps stocks ≠ 0) :
    currentAllocation ps stocks =
      (categoryTotals ps stocks).map
        (fun e => (e.1, e.2 / totalPortfolioValue ps stocks * 100)) := by
  simp only [currentAllocation, if_neg h]
  exact foldl_mapSet_fresh _ _ []
    (nodup_keys_accumTotals ps stocks [] (by simp)) (by simp)

theorem mapGet_map_value (l : CatMap) (f : ℚ → ℚ) (k : String) :
    mapGet (l.map (fun e => (e.1, f e.2))) k = (mapGet l k).map f := by
  induction l with
  | nil => rfl
  | cons e rest ih =>
    rw [List.map_cons, mapGet_cons, mapGet_cons]
    by_cases h : e.1 = k
    · simp [h]
    · simp [h, ih]

theorem accumTotals_congr (ps ps' : Prices) (stocks : List Stock)
    (h : ∀ s ∈ stocks, stockValue ps s = stockValue ps' s) :
    ∀ init : CatMap, accumTotals ps init stocks = accumTotals ps' init stocks := by
  induction stocks with
  | nil => intro init; rfl
  | cons s rest ih =>
    intro init
    rw [accumTotals_cons, accumTotals_cons, h s (List.mem_cons_self _ _),
      ih (fun s hs => h s (List.mem_cons_of_mem _ hs))]

theorem totalPortfolioValue_congr (ps ps' : Prices) (stocks : List Stock)
    (h : ∀ s ∈ stocks, stockValue ps s = stockValue ps' s) :
    totalPortfolioValue ps stocks = totalPortfolioValue ps' stocks := by
  rw [totalPortfolioValue_eq_sum, totalPortfolioValue_eq_sum]
  exact congrArg List.sum (List.map_congr_left h)

theorem currentAllocation_congr (ps ps' : Prices) (stocks : List Stock)
    (h : ∀ s ∈ stocks, stockValue ps s = stockValue ps' s) :
    currentAllocation ps stocks = currentAllocation ps' stocks := by
  unfold currentAllocation categoryTotals
  rw [accumTotals_congr ps ps' stocks h, totalPortfolioValue_congr ps ps' stocks h]

theorem pieChartData_congr (ps ps' : Prices) (stocks : List Stock)
    (h : ∀ s ∈ stocks, stockValue ps s = stockValue ps' s) :
    pieChartData ps stocks = pieChartData ps' stocks := by
  unfold pieChartData categoryTotals
  rw [accumTotals_congr ps ps' stocks h]


-- Claim theorems.

/-- C2 counterexample: the claim says the stock is valued `live_price *
quantity` whenever a live price entry is available; for `stockZ` the entry
`0` is available, yet the code values the stock at
`acquisition_price * quantity = 10000 ≠ 0 * 10`. -/
theorem claim_C2_counterexample :
    lookupPrice zeroPrices stockZ.id = some 0 ∧
    stockValue zeroPrices stockZ = 10000 ∧
    stockValue zeroPrices stockZ ≠ 0 * stockZ.quantity := by
  refine ⟨?_, ?_, ?_⟩ <;>
    norm_num [lookupPrice, stockValue, zeroPrices, stockZ, List.find?]

/-- C2 (amended): a stock is valued `live_price * quantity` when a live price
entry is available and non-zero; when the entry is absent or zero it falls
back to `acquisition_price * quantity`; the per-category totals sum these
values over the stocks carrying that category. -/
theorem claim_C2_value_and_category_sums :
    (∀ (ps : Prices) (s : Stock) (p : ℚ),
      lookupPrice ps s.id = some p → p ≠ 0 → stockValue ps s = p * s.quantity) ∧
    (∀ (ps : Prices) (s : Stock),
      lookupPrice ps s.id = none ∨ lookupPrice ps s.id = some 0 →
      stockValue ps s = s.quantity * s.acquisition_price) ∧
    (∀ (ps : Prices) (stocks : List Stock) (c : String),
      mapGetD (categoryTotals ps stocks) c =
        ((stocks.filter (fun s => s.category = c)).map (stockValue ps)).sum) := by
  refine ⟨?_, ?_, ?_⟩
  · intro ps s p hl hp
    simp [stockValue, hl, hp]
  · rintro ps s (hl | hl) <;> simp [stockValue, hl]
  · intro ps stocks c
    rw [categoryTotals, mapGetD_accumTotals]
    simp [mapGetD, mapGet_nil]

/-- C2 witness: concrete application of the amended claim to stock B of the
§8 scenario, whose live price 300 is present and non-zero. -/
theorem claim_C2_witness : stockValue scenPrices stockB = 300 * stockB.quantity :=
  claim_C2_value_and_category_sums.1 scenPrices stockB 300
    (by simp [lookupPrice, scenPrices, stockB, List.find?]) (by norm_num)

/-- C3: when the total portfolio value is zero — in particular for an empty
stock list — `currentAllocation` is the empty mapping; otherwise each present
category maps to `category_total / portfolio_total * 100`. -/
theorem claim_C3_zero_guard_and_percentages :
    (∀ (ps : Prices) (stocks : List Stock),
      totalPortfolioValue ps stocks = 0 → currentAllocation ps stocks = []) ∧
    (∀ ps : Prices, currentAllocation ps [] = []) ∧
    (∀ (ps : Prices) (stocks : List Stock),
      totalPortfolioValue ps stocks ≠ 0 →
      ∀ c, mapGet (currentAllocation ps stocks) c =
        (mapGet (categoryTotals ps stocks) c).map
          (fun t => t / totalPortfolioValue ps stocks * 100)) := by
  refine ⟨fun ps stocks h => currentAllocation_of_total_zero ps stocks h,
    fun ps => currentAllocation_of_total_zero ps [] rfl, ?_⟩
  intro ps stocks h c
  rw [currentAllocation_of_total_ne_zero ps stocks h]
  exact mapGet_map_value (categoryTotals ps stocks)
    (fun t => t / totalPortfolioValue ps stocks * 100) c

/-- C3 witness: the zero-total branch applied to the empty stock list, and
the percentage formula applied to the §8 scenario. -/
theorem claim_C3_witness :
    currentAllocation [] ([] : List Stock) = [] ∧
    mapGet (currentAllocation scenPrices [stockA, stockB]) "日本株" =
      (mapGet (categoryTotals scenPrices [stockA, stockB]) "日本株").map
        (fun t => t / totalPortfolioValue scenPrices [stockA, stockB] * 100) :=
  ⟨claim_C3_zero_guard_and_percentages.1 [] [] rfl,
    claim_C3_zero_guard_and_percentages.2.2 scenPrices [stockA, stockB]
      (by norm_num [totalPortfolioValue, stockValue, lookupPrice, scenPrices,
        stockA, stockB, List.foldl, List.find?]) "日本株"⟩

/-- C6: on the §8 scenario (stock A: 日本株, quantity 10, acquisition 1000,
no live price; stock B: 米国株, quantity 5, live price 300) the values are
10000 and 1500 and the percentages round to 86.96 and 13.04, summing to 100. -/
theorem claim_C6_concrete_scenario :
    stockValue scenPrices stockA = 10000 ∧
    stockValue scenPrices stockB = 1500 ∧
    currentAllocation scenPrices [stockA, stockB] =
      [("日本株", 2000/23), ("米国株", 300/23)] ∧
    round2 (2000/23) = 8696/100 ∧
    round2 (300/23) = 1304/100 ∧
    round2 (2000/23) + round2 (300/23) = 100 := by
  refine ⟨?_, ?_, ?_, ?_, ?_, ?_⟩
  · norm_num [stockValue, lookupPrice, scenPrices, stockA, List.find?]
  · norm_num [stockValue, lookupPrice, scenPrices, stockB, List.find?]
  · simp [currentAllocation, categoryTotals, accumTotals, totalPortfolioValue,
      List.foldl, mapSet, mapGetD, mapGet, stockValue, lookupPrice, List.find?,
      stockA, stockB, scenPrices]
    norm_num
  · rw [round2, round_eq]; norm_num
  · rw [round2, round_eq]; norm_num
  · rw [round2, round2, round_eq, round_eq]; norm_num

/-- C8: a present-but-zero live price is treated exactly like an absent one:
the stock is valued at `acquisition_price * quantity`, and
`currentAllocation` / `pieChartData` (which use the same truthy check via
`stockValue`) are unchanged when all such entries are dropped. -/
theorem claim_C8_zero_price_like_absent :
    (∀ (ps : Prices) (s : Stock), lookupPrice ps s.id = some 0 →
      stockValue ps s = s.quantity * s.acquisition_price ∧
      stockValue ps s = stockValue [] s) ∧
    (∀ (ps : Prices) (stocks : List Stock),
      (∀ s ∈ stocks, lookupPrice ps s.id = some 0) →
      currentAllocation ps stocks = currentAllocation [] stocks ∧
      pieChartData ps stocks = pieChartData [] stocks) := by
  have hval : ∀ (ps : Prices) (s : Stock), lookupPrice ps s.id = some 0 →
      stockValue ps s = stockValue [] s := by
    intro ps s h
    have h0 : lookupPrice ([] : Prices) s.id = none := rfl
    simp [stockValue, h, h0]
  refine ⟨fun ps s h => ⟨by simp [stockValue, h], hval ps s h⟩, ?_⟩
  intro ps stocks h
  exact ⟨currentAllocation_congr ps [] stocks (fun s hs => hval ps s (h s hs)),
    pieChartData_congr ps [] stocks (fun s hs => hval ps s (h s hs))⟩

/-- C8 witness: concrete application to `stockZ`, whose live-price entry is 0. -/
theorem claim_C8_witness :
    stockValue zeroPrices stockZ = stockZ.quantity * stockZ.acquisition_price ∧
    stockValue zeroPrices stockZ = stockValue [] stockZ :=
  claim_C8_zero_price_like_absent.1 zeroPrices stockZ
    (by simp [lookupPrice, zeroPrices, stockZ, List.find?])

/-- C1: when the candidate association set (selected parents ∪ selected
children) contains a child strategy whose parent id lies outside the set, the
update validation returns without sending the PUT (`none`); the hypothesis
that parent selections resolve to top-level strategies reflects the parent
select box, whose options are exactly the strategies with `parent_id === null`.
In particular, on the §8 tree, candidate ids {2} are rejected and {1, 2} are
accepted. -/
theorem claim_C1_orphan_child_rejected :
    (∀ (all : List Strategy) (parentIds childIds : List Nat),
      (∀ i ∈ parentIds, ∀ s, findStrategy all i = some s → s.parent_id = none) →
      ∀ c cs p, c ∈ parentIds ++ childIds → findStrategy all c = some cs →
        cs.parent_id = some p → p ∉ parentIds ++ childIds →
        handleUpdateSubmit all parentIds childIds = none) ∧
    handleUpdateSubmit demoStrategies [] [2] = none ∧
    handleUpdateSubmit demoStrategies [1] [2] = some [1, 2] := by
  refine ⟨?_, ?_, ?_⟩
  · intro all parentIds childIds htop c cs p hc hfind hpar hnot
    have hcchild : c ∈ childIds := by
      rcases List.mem_append.1 hc with h | h
      · exact absurd (htop c h cs hfind) (by simp [hpar])
      · exact h
    have hpnot : p ∉ parentIds := fun hp => hnot (List.mem_append.2 (Or.inl hp))
    have hok : childOk all parentIds c = false := by
      simp [childOk, hfind, hpar, hpnot]
    have hall : childValidationOk all parentIds childIds = false := by
      simp only [childValidationOk, List.all_eq_false]
      exact ⟨c, hcchild, by simp [hok]⟩
    simp [handleUpdateSubmit, hall]
  · simp [handleUpdateSubmit, childValidationOk, childOk, findStrategy,
      demoStrategies, growth, growthTech, List.find?]
  · simp [handleUpdateSubmit, childValidationOk, childOk, findStrategy,
      demoStrategies, growth, growthTech, List.find?, jsSetDedup, jsSetDedupGo]

/-- C1 witness: the universal rejection statement applied to the §8 tree with
candidate set {2}, whose strategy 2 has parent 1 outside the set. -/
theorem claim_C1_witness : handleUpdateSubmit demoStrategies [] [2] = none :=
  claim_C1_orphan_child_rejected.1 demoStrategies [] [2]
    (fun i hi => absurd hi (List.not_mem_nil i))
    2 growthTech 1 (by simp)
    (by simp [findStrategy, demoStrategies, growth, growthTech, List.find?])
    rfl (by simp)

/-- C7: whenever the update is sent, the `strategy_ids` list it carries has
no duplicates and its members are exactly the union of the selected parent
ids and the selected child ids. -/
theorem claim_C7_dedup_union :
    ∀ (all : List Strategy) (parentIds childIds ids : List Nat),
      handleUpdateSubmit all parentIds childIds = some ids →
      ids.Nodup ∧ ∀ x, x ∈ ids ↔ (x ∈ parentIds ∨ x ∈ childIds) := by
  intro all parentIds childIds ids h
  have hids : ids = jsSetDedup (parentIds ++ childIds) := by
    by_cases hv : childValidationOk all parentIds childIds
    · simp only [handleUpdateSubmit, if_pos hv, Option.some.injEq] at h
      exact h.symm
    · simp [handleUpdateSubmit, hv] at h
  subst hids
  refine ⟨nodup_jsSetDedup _, fun x => ?_⟩
  rw [mem_jsSetDedup, List.mem_append]

/-- C7 witness: duplicated selections (parents [1, 1], children [2, 1]) are
sent as the duplicate-free union [1, 2]. -/
theorem claim_C7_witness :
    ([1, 2] : List Nat).Nodup ∧
    ∀ x, x ∈ ([1, 2] : List Nat) ↔ (x ∈ ([1, 1] : List Nat) ∨ x ∈ ([2, 1] : List Nat)) :=
  claim_C7_dedup_union demoStrategies [1, 1] [2, 1] [1, 2]
    (by simp [handleUpdateSubmit, childValidationOk, childOk, findStrategy,
      demoStrategies, growth, growthTech, List.find?, jsSetDedup, jsSetDedupGo])

/-- C9: after a parent-selection change, the child selection is exactly its
previous members whose strategy resolves to a child whose parent id is among
the new parent ids — so no selected child is left orphaned. -/
theorem claim_C9_parent_change_invariant :
    ∀ (all : List Strategy) (ids prevChildIds : List Nat),
      (handleEditingParentStrategyChange all ids prevChildIds).1 = ids ∧
      ∀ c, c ∈ (handleEditingParentStrategyChange all ids prevChildIds).2 ↔
        (c ∈ prevChildIds ∧ ∃ cs p, findStrategy all c = some cs ∧
          cs.parent_id = some p ∧
          p ∈ (handleEditingParentStrategyChange all ids prevChildIds).1) := by
  intro all ids prev
  refine ⟨rfl, fun c => ?_⟩
  simp only [handleEditingParentStrategyChange, List.mem_filter]
  constructor
  · rintro ⟨hc, hfil⟩
    refine ⟨hc, ?_⟩
    rcases hfind : findStrategy all c with _ | cs
    · rw [hfind] at hfil
      simp at hfil
    · rw [hfind] at hfil
      rcases hpar : cs.parent_id with _ | p
      · simp [hpar] at hfil
      · simp only [hpar, decide_eq_true_eq] at hfil
        exact ⟨cs, p, rfl, hpar, hfil⟩
  · rintro ⟨hc, cs, p, hfind, hpar, hp⟩
    exact ⟨hc, by simp [hfind, hpar, hp]⟩

/-- C9 witness: with the §8 tree, child 2 stays selected when parent 1 is
still selected. -/
theorem claim_C9_witness :
    2 ∈ (handleEditingParentStrategyChange demoStrategies [1] [2]).2 :=
  ((claim_C9_parent_change_invariant demoStrategies [1] [2]).2 2).2
    ⟨by simp, growthTech, 1,
      by simp [findStrategy, demoStrategies, growth, growthTech, List.find?],
      rfl, by simp [handleEditingParentStrategyChange]⟩

/-- C4: the comparison table has exactly one row per category present in
either the current composition or the target list; a row whose category has
no holdings shows current percentage 0, and one whose category has no target
shows target percentage 0. -/
theorem claim_C4_union_rows :
    ∀ (cur : CatMap) (allocations : List TargetAllocation),
      ((combinedAllocationData cur allocations).map (fun r => r.category)).Nodup ∧
      (∀ c, c ∈ (combinedAllocationData cur allocations).map (fun r => r.category) ↔
        (c ∈ cur.map (fun e => e.1) ∨ c ∈ allocations.map (fun a => a.category))) ∧
      (∀ r ∈ combinedAllocationData cur allocations,
        r.category ∉ cur.map (fun e => e.1) → r.currentPercentage = 0) ∧
      (∀ r ∈ combinedAllocationData cur allocations,
        (∀ a ∈ allocations, a.category ≠ r.category) → r.targetPercentage = 0) := by
  intro cur allocations
  have hperm : List.Perm (combinedAllocationData cur allocations)
      ((jsSetDedup (cur.map (fun e => e.1) ++ allocations.map (fun a => a.category))).map
        (combinedRow cur allocations)) :=
    List.perm_insertionSort rowGE _
  have hmapcat :
      ((jsSetDedup (cur.map (fun e => e.1) ++ allocations.map (fun a => a.category))).map
        (combinedRow cur allocations)).map (fun r => r.category) =
      jsSetDedup (cur.map (fun e => e.1) ++ allocations.map (fun a => a.category)) := by
    rw [List.map_map]
    exact List.map_id'' (fun c => rfl) _
  have hpermcat := hmapcat ▸ hperm.map (fun r : CombinedAllocation => r.category)
  refine ⟨?_, ?_, ?_, ?_⟩
  · exact hpermcat.nodup_iff.2 (nodup_jsSetDedup _)
  · intro c
    rw [hpermcat.mem_iff, mem_jsSetDedup, List.mem_append]
  · intro r hr hnot
    rcases List.mem_map.1 (hperm.subset hr) with ⟨c, hcmem, hceq⟩
    rw [← hceq] at hnot ⊢
    have hnone : mapGet cur c = none := (mapGet_eq_none cur c).2 hnot
    simp [combinedRow, hnone]
  · intro r hr hnone
    rcases List.mem_map.1 (hperm.subset hr) with ⟨c, hcmem, hceq⟩
    rw [← hceq] at hnone ⊢
    have hfind : allocations.find? (fun a => a.category = c) = none := by
      apply List.find?_eq_none.2
      intro a ha
      simpa using hnone a ha
    simp [combinedRow, hfind]

/-- C4 witness: with holdings only in 日本株 and a target only for 米国株,
the 米国株 row (present in the table) shows current percentage 0. -/
theorem claim_C4_witness :
    (⟨"米国株", 0, 50⟩ : CombinedAllocation).currentPercentage = 0 :=
  (claim_C4_union_rows [("日本株", 10)] [⟨"米国株", 50⟩]).2.2.1
    ⟨"米国株", 0, 50⟩
    (by
      have hlist : combinedAllocationData [("日本株", 10)] [⟨"米国株", 50⟩] =
          [⟨"日本株", 10, 0⟩, ⟨"米国株", 0, 50⟩] := by
        simp [combinedAllocationData, combinedRow, jsSetDedup, jsSetDedupGo,
          mapGet, List.insertionSort, List.orderedInsert, rowGE]
        try norm_num
      rw [hlist]
      simp)
    (by simp)

/-- C5: the comparison table is always ordered by current percentage
descending; on the §8 scenario the 日本株 row (current 86.96) precedes the
米国株 row (current 13.04). -/
theorem claim_C5_sorted_descending :
    (∀ (cur : CatMap) (allocations : List TargetAllocation),
      List.Sorted rowGE (combinedAllocationData cur allocations)) ∧
    combinedAllocationData (currentAllocation scenPrices [stockA, stockB])
      [⟨"米国株", 50⟩] =
      [⟨"日本株", 2000/23, 0⟩, ⟨"米国株", 300/23, 50⟩] ∧
    round2 (2000/23) = 8696/100 ∧ round2 (300/23) = 1304/100 := by
  refine ⟨fun cur allocations => List.sorted_insertionSort rowGE _, ?_, ?_, ?_⟩
  · have hc : currentAllocation scenPrices [stockA, stockB] =
        [("日本株", 2000/23), ("米国株", 300/23)] := by
      simp [currentAllocation, categoryTotals, accumTotals, totalPortfolioValue,
        List.foldl, mapSet, mapGetD, mapGet, stockValue, lookupPrice, List.find?,
        stockA, stockB, scenPrices]
      norm_num
    rw [hc]
    simp [combinedAllocationData, combinedRow, jsSetDedup, jsSetDedupGo, mapGet,
      List.insertionSort, List.orderedInsert, rowGE]
    norm_num
  · rw [round2, round_eq]; norm_num
  · rw [round2, round_eq]; norm_num

/-- C10: the fetch-time category heuristic: an empty or 未分類 category is
replaced — 日本株 when the ticker matches `/^\d+$/`, 米国株 otherwise — and
the stock is flagged for write-back; any other category is kept unchanged,
so no displayed stock retains an empty or 未分類 category. -/
theorem claim_C10_category_heuristic :
    ∀ s : Stock,
      (fixStockCategory s).1.category ≠ "" ∧
      (fixStockCategory s).1.category ≠ "未分類" ∧
      ((s.category = "" ∨ s.category = "未分類") →
        fixStockCategory s =
          ({ s with category := if isJapaneseTicker s.ticker then "日本株" else "米国株" },
            true)) ∧
      (¬(s.category = "" ∨ s.category = "未分類") → fixStockCategory s = (s, false)) := by
  intro s
  by_cases h : s.category = "" ∨ s.category = "未分類"
  · have heq : fixStockCategory s =
        ({ s with category := if isJapaneseTicker s.ticker then "日本株" else "米国株" },
          true) := by
      simp [fixStockCategory, h]
    refine ⟨?_, ?_, fun _ => heq, fun hn => absurd h hn⟩
    · rw [heq]
      by_cases ht : isJapaneseTicker s.ticker <;> simp [ht]
    · rw [heq]
      by_cases ht : isJapaneseTicker s.ticker <;> simp [ht]
  · have heq : fixStockCategory s = (s, false) := by
      simp [fixStockCategory, h]
    push_neg at h
    refine ⟨?_, ?_, fun hc => absurd hc (by push_neg; exact h), fun _ => heq⟩
    · rw [heq]; exact h.1
    · rw [heq]; exact h.2

/-- C10 witness: `stockU` (empty category, all-digit ticker 7203) is
reassigned 日本株 and flagged for write-back. -/
theorem claim_C10_witness :
    fixStockCategory stockU = ({ stockU with category := "日本株" }, true) := by
  have ht : isJapaneseTicker stockU.ticker = true := by decide
  have h := (claim_C10_category_heuristic stockU).2.2.1 (Or.inl rfl)
  rw [h, ht]
  simp
